import Mathlib

/-!
Shallow embedding of `bin/mergelogga.js`, a changelog generator that walks a
newest-first git history stream, segments commits into version buckets at tag
decorations, resolves and filters commit messages, and prepends rendered
blocks to an existing changelog file.

Strings are modelled as `List Char` (`Str`) so that every operation of the
source (trimming, splitting, regex-like matching) is an executable function
amenable to `decide` on concrete inputs.
-/

namespace Mergelogga

abbrev Str := List Char

/-- Whitespace as recognised by the JS `\s` class and `trim`, restricted to
the ASCII whitespace characters that can actually occur in the parsed lines. -/
def jsWs (c : Char) : Bool :=
  c = ' ' || c = '\t' || c = '\n' || c = '\r' || c = '\x0b' || c = '\x0c'

/-- Remove the maximal trailing run of whitespace characters. -/
def dropTrailingWs : Str → Str
  | [] => []
  | c :: cs =>
    match dropTrailingWs cs with
    | [] => if jsWs c then [] else [c]
    | d :: ds => c :: d :: ds

/-- Lodash `_.trim(line)`: strip leading and trailing whitespace. -/
def jsTrim (s : Str) : Str :=
  dropTrailingWs (s.dropWhile jsWs)

/-- JS `String.prototype.split` on a single-character separator: always
returns a non-empty list, `"" → [""]`. -/
def splitOnChar (sep : Char) : Str → List Str
  | [] => [[]]
  | c :: rest =>
    if c = sep then
      [] :: splitOnChar sep rest
    else
      match splitOnChar sep rest with
      | [] => [[c]]
      | l :: ls => (c :: l) :: ls

/-- Prepend a character to the first piece of a split result. -/
def consHead (c : Char) : List Str → List Str
  | [] => [[c]]
  | l :: ls => (c :: l) :: ls

/-- JS `split(/(?:\r?\n)/g)`: split at `\r\n` or `\n`; a lone `\r` stays in
its line. -/
def splitLines : Str → List Str
  | [] => [[]]
  | [c] => if c = '\n' then [[], []] else [[c]]
  | c :: c2 :: rest =>
    if c = '\n' then [] :: splitLines (c2 :: rest)
    else if c = '\r' ∧ c2 = '\n' then [] :: splitLines rest
    else consHead c (splitLines (c2 :: rest))

/-- Concatenate lines, appending a newline to each, modelling the
line-plus-newline accumulation of `getLastVersionFromChangelog`. -/
def joinNl : List Str → Str
  | [] => []
  | l :: ls => l ++ '\n' :: joinNl ls

/-- The source regexp `versionRegExp = /^[0-9]+\.[0-9]+(\.[0-9]+(\.[0-9]+)?)?$/` as a full-string
match: two to four dot-separated non-empty runs of ASCII digits. -/
def isVersion (s : Str) : Bool :=
  let comps := splitOnChar '.' s
  decide (2 ≤ comps.length) && decide (comps.length ≤ 4) &&
    comps.all (fun comp => !comp.isEmpty && comp.all Char.isDigit)

/-- Case-insensitive prefix test, used to model `/i` regular expressions. -/
def startsWithCI : Str → Str → Bool
  | [], _ => true
  | _ :: _, [] => false
  | p :: ps, c :: cs => (p.toLower == c.toLower) && startsWithCI ps cs

/-- Does `/tag:[\s]+/i` match at the start of `s`? -/
def tagHere (s : Str) : Bool :=
  startsWithCI "tag:".data s &&
    (match s.drop 4 with
     | c :: _ => jsWs c
     | [] => false)

/-- The capture of `/tag:[\s]+v?(.*)/i` when it matches at the start of `s`:
skip `tag:`, the maximal whitespace run, and one optional `v`/`V`. -/
def tagCaptureAt (s : Str) : Str :=
  match (s.drop 4).dropWhile jsWs with
  | 'v' :: r => r
  | 'V' :: r => r
  | after => after

/-- Search semantics of `version.match(/tag:[\s]+v?(.*)/i)`: the capture at
the leftmost position where the pattern matches, if any. -/
def tagCapture : Str → Option Str
  | [] => none
  | c :: rest =>
    if tagHere (c :: rest) then some (tagCaptureAt (c :: rest))
    else tagCapture rest

/-- Tail of the comma split `refNames.split(/\s*,\s*/)`: every comma absorbs
the adjacent whitespace runs on both sides. -/
def splitCommasGo : Str → List Str → List Str
  | p, [] => [p]
  | p, q :: qs => dropTrailingWs p :: splitCommasGo (q.dropWhile jsWs) qs

/-- JS `refNames.split(/\s*,\s*/)`: split at commas, stripping whitespace that
touches a comma but keeping outer whitespace. -/
def splitCommasWs (s : Str) : List Str :=
  match splitOnChar ',' s with
  | [] => []
  | p :: ps => splitCommasGo p ps

/-- Model of `getTagVersion(refNames)` from the source: split the decoration string at
commas, then reduce, keeping the first capture of `/tag:[\s]+v?(.*)/i` whose
value fully matches `versionRegExp`. An absent or empty decoration string
yields no versions (JS falsiness of the empty string). -/
def getTagVersion (refNames : Option Str) : Option Str :=
  let versions : List Str :=
    match refNames with
    | none => []
    | some s => if s.isEmpty then [] else splitCommasWs s
  versions.foldl
    (fun tag version =>
      match tag with
      | some t => some t
      | none =>
        match tagCapture version with
        | none => none
        | some cap => if isVersion cap then some cap else none)
    none

structure VersionBucket where
  version : Str
  commits : List Str
deriving DecidableEq, Repr

/-- Parse one trimmed history line `<hash> <parents>#<decorations>` into its
space-separated hash tokens (`parts[0].split(' ')`). -/
def hashesOf (rawLine : Str) : List Str :=
  splitOnChar ' ' ((splitOnChar '#' (jsTrim rawLine)).headD [])

/-- The version tag detected on a history line: `getTagVersion(parts[1])`. -/
def tagOf (rawLine : Str) : Option Str :=
  getTagVersion ((splitOnChar '#' (jsTrim rawLine)).get? 1)

/-- The retained commit hash of a history line:
`hashes[0].length && (allCommits || hashes.length > 2)`. -/
def retainOf (allCommits : Bool) (rawLine : Str) : Option Str :=
  let hashes := hashesOf rawLine
  if !(hashes.headD []).isEmpty && (allCommits || decide (hashes.length > 2)) then
    some (hashes.headD [])
  else
    none

structure SegState where
  buckets : List VersionBucket
  currentCommits : List Str
  currentVersion : Option Str
  killed : Bool
deriving DecidableEq, Repr

/-- The bucket sealed from the open state when a new tag arrives or the
stream closes: `{version: currentVersion, commits: currentCommits}` if a
version is current, nothing otherwise. -/
def sealOf (st : SegState) : List VersionBucket :=
  match st.currentVersion with
  | some v => [⟨v, st.currentCommits⟩]
  | none => []

/-- One iteration of the `_.forEach` over history lines in
`getVersionsWithCommits`: skip everything once the process was killed;
on a tag equal to `untilVersion`, kill and stop; on another tag, seal and
push the open bucket and open a new one; finally retain the commit hash if
the retention policy admits it. -/
def segStep (allCommits : Bool) (untilVersion : Option Str)
    (st : SegState) (rawLine : Str) : SegState :=
  if st.killed then st
  else
    let st1 : SegState :=
      match tagOf rawLine with
      | none => st
      | some v =>
        if untilVersion = some v then
          { st with killed := true }
        else
          { buckets := st.buckets ++ sealOf st
            currentCommits := []
            currentVersion := some v
            killed := false }
    if st1.killed then st1
    else
      match retainOf allCommits rawLine with
      | some h => { st1 with currentCommits := st1.currentCommits ++ [h] }
      | none => st1

def segRun (allCommits : Bool) (untilVersion : Option Str)
    (st : SegState) (lines : List Str) : SegState :=
  lines.foldl (segStep allCommits untilVersion) st

/-- Successful branch of the `close` handler: push the open bucket, if any. -/
def segClose (st : SegState) : List VersionBucket :=
  st.buckets ++ sealOf st

/-- The bucket list produced by `getVersionsWithCommits` from a stream of
history lines (the successful-close result). -/
def segBuckets (allCommits : Bool) (startVersion untilVersion : Option Str)
    (lines : List Str) : List VersionBucket :=
  segClose (segRun allCommits untilVersion ⟨[], [], startVersion, false⟩ lines)

/-- Whether the history stream gets killed (resume version reached). -/
def segKilled (allCommits : Bool) (startVersion untilVersion : Option Str)
    (lines : List Str) : Bool :=
  (segRun allCommits untilVersion ⟨[], [], startVersion, false⟩ lines).killed

/-- Model of `getVersionsWithCommits` including the error branch of the
`close` handler:
when the process was killed its exit code is `null` (falsy), so the run
succeeds; otherwise a nonzero exit code aborts with an error message. -/
def getVersionsWithCommits (allCommits : Bool)
    (startVersion untilVersion : Option Str)
    (lines : List Str) (exitCode : Nat) : Except Str (List VersionBucket) :=
  let st := segRun allCommits untilVersion ⟨[], [], startVersion, false⟩ lines
  if st.killed = true ∨ exitCode = 0 then
    .ok (segClose st)
  else
    .error ("Unable to get merge commits. Git errored with code #".data ++
      (Nat.repr exitCode).data)

/-- Predicate selecting history lines that carry no version tag. -/
def noTag (rawLine : Str) : Bool :=
  (tagOf rawLine).isNone

/-- Declarative segmentation: the bucket of the version `v` open at the head
of the stream holds `cs` plus every retained commit strictly before the next
tag line; the retained commit of the tag line itself seeds the next bucket, and
buckets appear in tag-detection order. -/
def segSpecGo (allCommits : Bool) (v : Str) (cs : List Str)
    (lines : List Str) : List VersionBucket :=
  ⟨v, cs ++ (lines.takeWhile noTag).filterMap (retainOf allCommits)⟩ ::
    (match h : lines.dropWhile noTag with
     | [] => []
     | t :: rest =>
       segSpecGo allCommits ((tagOf t).getD []) ((retainOf allCommits t).toList) rest)
termination_by lines.length
decreasing_by
  have hle : (lines.dropWhile noTag).length ≤ lines.length :=
    (List.dropWhile_sublist noTag).length_le
  rw [h] at hle
  simp at hle
  omega

/-- Declarative segmentation from the initial state: with a start-version the
first bucket is open from the beginning; without one, every commit before the
first tag belongs to no bucket. -/
def segSpecTop (allCommits : Bool) (startVersion : Option Str)
    (lines : List Str) : List VersionBucket :=
  match startVersion with
  | some v => segSpecGo allCommits v [] lines
  | none =>
    match lines.dropWhile noTag with
    | [] => []
    | t :: rest =>
      segSpecGo allCommits ((tagOf t).getD []) ((retainOf allCommits t).toList) rest

/-! ## Changelog scan and write (`getLastVersionFromChangelog`,
`writeChangelogFile`) -/

structure ScanState where
  header : Str
  old : Str
  untilV : Option Str
deriving DecidableEq, Repr

/-- One iteration of the `_.forEach` over changelog lines: the first line
fully matching `versionRegExp` becomes `untilVersion`; from that line onward
lines accumulate (each with a trailing newline) into `oldChangelog`,
earlier ones into
`oldChangelogHeader`. -/
def scanLine (st : ScanState) (line : Str) : ScanState :=
  let u : Option Str :=
    match st.untilV with
    | none => if isVersion line then some line else none
    | some v => some v
  match u with
  | some v => { st with old := st.old ++ line ++ ['\n'], untilV := some v }
  | none => { st with header := st.header ++ line ++ ['\n'] }

/-- Model of `getLastVersionFromChangelog`: nothing is scanned when overwriting or
when the changelog is empty; otherwise split into lines, fold `scanLine`,
and drop the last character of `oldChangelog` (the appended newline). -/
def getLastVersionFromChangelog (overwrite : Bool) (changelog : Str) :
    ScanState :=
  if overwrite || changelog.isEmpty then ⟨[], [], none⟩
  else
    let st := (splitLines changelog).foldl scanLine ⟨[], [], none⟩
    { st with old := st.old.dropLast }

/-- Model of `writeChangelogFile`: a non-empty rendered changelog is written as
`oldChangelogHeader + changelog + oldChangelog`; an empty one writes
nothing. -/
def writeChangelogFile (header old changelog : Str) : Option Str :=
  if changelog.isEmpty then none
  else some (header ++ changelog ++ old)

/-! ## Message resolver (`getMessageForCommit` and its filters) -/

/-- The regexp `/^(#\s*)?Conflicts:/i`: an optional `#` plus whitespace, then the
case-insensitive literal `Conflicts:`. -/
def conflictMatch (s : Str) : Bool :=
  startsWithCI "conflicts:".data s ||
    (match s with
     | c :: rest => c = '#' && startsWithCI "conflicts:".data (rest.dropWhile jsWs)
     | [] => false)

/-- The regexp `/^Merge (remote-tracking )?branch .*/i`. -/
def mergeBranchMatch (s : Str) : Bool :=
  startsWithCI "merge branch ".data s ||
    startsWithCI "merge remote-tracking branch ".data s

/-- The regexp `/^See merge request !.*/i`. -/
def mergeRequestMatch (s : Str) : Bool :=
  startsWithCI "see merge request !".data s

structure MsgState where
  filtered : List Str
  isMergeRequest : Bool
  foundConflict : Bool
deriving DecidableEq, Repr

/-- One iteration of the `_.reduce` over raw message lines in
`getMessageForCommit`: trim; a conflict marker sets the sticky flag and,
once set, every line (the marker included) is discarded; merge-branch
boilerplate is dropped; a merge-request line is dropped and marks the
commit; other non-empty lines are retained in order. -/
def msgLineStep (st : MsgState) (rawLine : Str) : MsgState :=
  let line := jsTrim rawLine
  let fc := st.foundConflict || conflictMatch line
  if fc then { st with foundConflict := fc }
  else if mergeBranchMatch line then st
  else if mergeRequestMatch line then { st with isMergeRequest := true }
  else if !line.isEmpty then { st with filtered := st.filtered ++ [line] }
  else st

def msgRun (st : MsgState) (body : List Str) : MsgState :=
  body.foldl msgLineStep st

/-- Join retained lines with newline separators, modelling the JS
newline join of `message`. -/
def joinNlSep : List Str → Str
  | [] => []
  | [l] => l
  | l :: l2 :: ls => l ++ '\n' :: joinNlSep (l2 :: ls)

/-- Successful result of `getMessageForCommit`: the filtered message text
(first line only in short mode when non-empty) and the merge-request flag. -/
def resolveMessage (shortCommitMessage : Bool) (body : List Str) :
    Str × Bool :=
  let st := msgRun ⟨[], false, false⟩ body
  (match st.filtered with
   | m0 :: _ =>
     if shortCommitMessage then m0 else joinNlSep st.filtered
   | [] => joinNlSep st.filtered,
   st.isMergeRequest)

/-- Sequential model of the bounded-parallel `async.parallelLimit` with
fail-fast aggregation: results are positional, the first error aborts. -/
def exceptMapM (f : α → Except Str β) : List α → Except Str (List β)
  | [] => .ok []
  | a :: as =>
    match f a with
    | .error e => .error e
    | .ok b => (exceptMapM f as).map (fun bs => b :: bs)

/-- The per-commit task built in `getMessagesForListOfCommits`: fetch the
message (modelled by `msgBody`/`msgExit`), then keep the sanitised text only
in all-commits mode or for merge-request commits. `sanitize` stands for the
external `remove-markdown` collaborator. -/
def perCommitMessage (allCommits shortCommitMessage : Bool)
    (sanitize : Str → Str) (msgBody : Str → List Str) (msgExit : Str → Nat)
    (hash : Str) : Except Str Str :=
  if msgExit hash ≠ 0 then
    .error ("Unable to get commit message. Git errored with code #".data ++
      (Nat.repr (msgExit hash)).data)
  else
    let r := resolveMessage shortCommitMessage (msgBody hash)
    .ok (if allCommits || r.2 then sanitize r.1 else [])

def getMessagesForListOfCommits (allCommits shortCommitMessage : Bool)
    (sanitize : Str → Str) (msgBody : Str → List Str) (msgExit : Str → Nat)
    (commits : List Str) : Except Str (List Str) :=
  exceptMapM (perCommitMessage allCommits shortCommitMessage sanitize msgBody msgExit)
    commits

/-- Lodash `_.filter(messages)`: keep truthy (non-empty) texts. -/
def filterEmptyMessages (messages : List Str) : List Str :=
  messages.filter (fun m => !m.isEmpty)

structure VersionWithMessages where
  version : Str
  messages : List Str
deriving DecidableEq, Repr

def getMessagesForVersions (allCommits shortCommitMessage : Bool)
    (sanitize : Str → Str) (msgBody : Str → List Str) (msgExit : Str → Nat)
    (buckets : List VersionBucket) : Except Str (List VersionWithMessages) :=
  exceptMapM
    (fun b =>
      (getMessagesForListOfCommits allCommits shortCommitMessage sanitize
          msgBody msgExit b.commits).map
        (fun msgs => ⟨b.version, filterEmptyMessages msgs⟩))
    buckets

/-- Model of `filterEmptyVersions`: keep versions whose message list is non-empty. -/
def filterEmptyVersions (vs : List VersionWithMessages) :
    List VersionWithMessages :=
  vs.filter (fun v => decide (v.messages.length > 0))

/-! ## Changelog rendering (`generateChangelog`) and the full pipeline -/

/-- One rendered block: the version, an `=` underline of the same length,
then one ` * ` bullet per message. -/
def generateVersionChangelog (version : Str) (messages : List Str) : Str :=
  messages.foldl
    (fun r m => r ++ " * ".data ++ m ++ ['\n'])
    (version ++ '\n' :: List.replicate version.length '=' ++ ['\n'])

/-- Model of `generateChangelog`: render blocks in order, stopping (the lodash
`return false`) at the first bucket whose version equals `untilVersion`. -/
def generateChangelog (untilVersion : Option Str)
    (vs : List VersionWithMessages) : Str :=
  (vs.takeWhile (fun v => !(untilVersion = some v.version : Bool))).foldl
    (fun acc v => acc ++ generateVersionChangelog v.version v.messages ++ ['\n'])
    []

structure Options where
  allCommits : Bool
  overwrite : Bool
  startVersion : Option Str
  shortCommitMessage : Bool

/-- The external collaborators of one run: the content of the changelog store
(absent file = `none`), the lines and exit code of the history stream, and the
per-hash message bodies and exit codes. -/
structure RunInput where
  fileContent : Option Str
  histLines : List Str
  histExit : Nat
  msgBody : Str → List Str
  msgExit : Str → Nat

/-- Observable outcome of a run: what was written to the changelog store (if
anything), the process exit code, and the error-stream output. -/
structure RunOutcome where
  written : Option Str
  exitCode : Nat
  errOut : Option Str
deriving DecidableEq

/-- The `async.waterfall` of the program: any stage error short-circuits to
`handleFinish`, which prints `ERROR: ` plus the description and exits 1;
otherwise the rendered changelog is written (when non-empty) and the process
exits 0. -/
def runMergelogga (opts : Options) (sanitize : Str → Str)
    (inp : RunInput) : RunOutcome :=
  let content := inp.fileContent.getD []
  let scan := getLastVersionFromChangelog opts.overwrite content
  match getVersionsWithCommits opts.allCommits opts.startVersion scan.untilV
      inp.histLines inp.histExit with
  | .error e => ⟨none, 1, some ("ERROR: ".data ++ e)⟩
  | .ok buckets =>
    match getMessagesForVersions opts.allCommits opts.shortCommitMessage
        sanitize inp.msgBody inp.msgExit buckets with
    | .error e => ⟨none, 1, some ("ERROR: ".data ++ e)⟩
    | .ok vs =>
      let changelog := generateChangelog scan.untilV (filterEmptyVersions vs)
      ⟨writeChangelogFile scan.header scan.old changelog, 0, none⟩

/-! ## Claim-side tag pattern (refinement check for C5)

The following two definitions are NOT translated from the source: they follow
the pattern `tag:\s*v?(<version>)` stated by the specification, whose whitespace
quantifier is `*` where the source has `[\s]+`.  They exist only to be
compared against `getTagVersion`. -/

/-- Modelled from the spec: the capture of the pattern stated by the spec,
`tag:\s*v?(<version>)` at the leftmost occurrence of `tag:` — zero or more
whitespace characters allowed after the colon. -/
def claimTagCapture : Str → Option Str
  | [] => none
  | c :: rest =>
    if startsWithCI "tag:".data (c :: rest) then
      some (match ((c :: rest).drop 4).dropWhile jsWs with
            | 'v' :: r => r
            | 'V' :: r => r
            | after => after)
    else claimTagCapture rest

/-- Modelled from the spec: first decoration, in provider order, whose
spec-pattern capture itself matches the version pattern. -/
def claimFirstTag (decorations : List Str) : Option Str :=
  decorations.findSome? fun d =>
    match claimTagCapture d with
    | none => none
    | some cap => if isVersion cap then some cap else none

/-- The qualifying capture of one decoration under the pattern of the source,
`tag:[\s]+v?(.*)` plus the version check. -/
def qualTag (d : Str) : Option Str :=
  match tagCapture d with
  | none => none
  | some cap => if isVersion cap then some cap else none

/-! ## Lemmas about the segmentation fold -/

theorem segRun_nil (allc : Bool) (u : Option Str) (st : SegState) :
    segRun allc u st [] = st := rfl

theorem segRun_cons (allc : Bool) (u : Option Str) (st : SegState)
    (l : Str) (ls : List Str) :
    segRun allc u st (l :: ls) = segRun allc u (segStep allc u st l) ls := rfl

theorem segRun_append (allc : Bool) (u : Option Str) (st : SegState)
    (l1 l2 : List Str) :
    segRun allc u st (l1 ++ l2) = segRun allc u (segRun allc u st l1) l2 :=
  List.foldl_append _ _ _ _

theorem segStep_killed (allc : Bool) (u : Option Str) (st : SegState)
    (l : Str) (h : st.killed = true) : segStep allc u st l = st := by
  simp [segStep, h]

theorem segRun_killed (allc : Bool) (u : Option Str) (st : SegState)
    (ls : List Str) (h : st.killed = true) : segRun allc u st ls = st := by
  induction ls with
  | nil => rfl
  | cons l ls ih => rw [segRun_cons, segStep_killed allc u st l h, ih]

theorem segStep_noTag (allc : Bool) (u : Option Str) (st : SegState)
    (l : Str) (h : st.killed = false) (ht : tagOf l = none) :
    segStep allc u st l =
      { st with currentCommits := st.currentCommits ++ (retainOf allc l).toList } := by
  obtain ⟨bs, cc, cv, k⟩ := st
  simp only at h
  subst h
  cases hr : retainOf allc l <;> simp [segStep, ht, hr]

theorem segStep_tag (allc : Bool) (u : Option Str) (st : SegState)
    (l : Str) (v : Str) (h : st.killed = false) (ht : tagOf l = some v)
    (hu : u ≠ some v) :
    segStep allc u st l =
      ⟨st.buckets ++ sealOf st, (retainOf allc l).toList, some v, false⟩ := by
  cases hr : retainOf allc l <;> simp [segStep, h, ht, hu, hr]

theorem segStep_untilTag (allc : Bool) (u : Option Str) (st : SegState)
    (l : Str) (v : Str) (h : st.killed = false) (ht : tagOf l = some v)
    (hu : u = some v) :
    segStep allc u st l = { st with killed := true } := by
  simp [segStep, h, ht, hu]

theorem segRun_noTags (allc : Bool) (u : Option Str) (st : SegState)
    (pre : List Str) (h : st.killed = false)
    (hp : ∀ l ∈ pre, noTag l = true) :
    segRun allc u st pre =
      { st with currentCommits := st.currentCommits ++ pre.filterMap (retainOf allc) } := by
  induction pre generalizing st with
  | nil => simp [segRun_nil]
  | cons l ls ih =>
    have ht : tagOf l = none := by
      have := hp l (by simp)
      simpa [noTag, Option.isNone_iff_eq_none] using this
    rw [segRun_cons, segStep_noTag allc u st l h ht,
      ih { st with currentCommits := st.currentCommits ++ (retainOf allc l).toList }
        h (fun x hx => hp x (by simp [hx]))]
    cases hr : retainOf allc l <;> simp [hr, List.filterMap_cons]

theorem segClose_ignores_killed (st : SegState) (b : Bool) :
    segClose { st with killed := b } = segClose st := rfl

theorem segSpecGo_nil_rest (allc : Bool) (v : Str) (cs : List Str)
    (ls : List Str) (h : ls.dropWhile noTag = []) :
    segSpecGo allc v cs ls =
      [⟨v, cs ++ (ls.takeWhile noTag).filterMap (retainOf allc)⟩] := by
  rw [segSpecGo]
  split
  · rfl
  · rename_i t rest heq
    rw [h] at heq
    exact absurd heq (by simp)

theorem segSpecGo_cons_rest (allc : Bool) (v : Str) (cs : List Str)
    (ls : List Str) (t : Str) (rest : List Str)
    (h : ls.dropWhile noTag = t :: rest) :
    segSpecGo allc v cs ls =
      ⟨v, cs ++ (ls.takeWhile noTag).filterMap (retainOf allc)⟩ ::
        segSpecGo allc ((tagOf t).getD []) ((retainOf allc t).toList) rest := by
  rw [segSpecGo]
  split
  · rename_i heq
    rw [h] at heq
    exact absurd heq (by simp)
  · rename_i t2 rest2 heq
    rw [h] at heq
    cases heq
    rfl

theorem dropWhile_head_false {α : Type} (p : α → Bool) (l : List α)
    (t : α) (rest : List α) (h : l.dropWhile p = t :: rest) : p t = false := by
  have := List.head?_dropWhile_not p l
  rw [h] at this
  simpa using this

/-- Core of the grouping argument: running the segmentation fold from an
open bucket `(v, cs)` and closing produces exactly the declarative
segmentation, with already-sealed buckets in front. -/
theorem segRun_segSpecGo (allc : Bool) :
    ∀ (n : Nat) (ls : List Str), ls.length ≤ n → ∀ (v : Str) (cs : List Str)
      (bs : List VersionBucket),
      segClose (segRun allc none ⟨bs, cs, some v, false⟩ ls) =
        bs ++ segSpecGo allc v cs ls := by
  intro n
  induction n with
  | zero =>
    intro ls hls v cs bs
    have : ls = [] := List.eq_nil_of_length_eq_zero (Nat.le_zero.mp hls)
    subst this
    rw [segRun_nil, segSpecGo_nil_rest allc v cs [] rfl]
    simp [segClose, sealOf]
  | succ n ih =>
    intro ls hls v cs bs
    have hsplit := List.takeWhile_append_dropWhile noTag ls
    have hpre : ∀ l ∈ ls.takeWhile noTag, noTag l = true :=
      fun l hl => List.mem_takeWhile_imp hl
    conv_lhs => rw [← hsplit]
    rw [segRun_append,
      segRun_noTags allc none ⟨bs, cs, some v, false⟩ (ls.takeWhile noTag) rfl hpre]
    cases hrest : ls.dropWhile noTag with
    | nil =>
      rw [segRun_nil, segSpecGo_nil_rest allc v cs ls hrest]
      simp [segClose, sealOf]
    | cons t rest =>
      have hnt : noTag t = false := dropWhile_head_false noTag ls t rest hrest
      obtain ⟨w, htw⟩ : ∃ w, tagOf t = some w := by
        cases htag : tagOf t with
        | none => rw [noTag, htag] at hnt; simp at hnt
        | some w => exact ⟨w, rfl⟩
      have hrlen : rest.length ≤ n := by
        have h1 : (ls.dropWhile noTag).length ≤ ls.length :=
          (List.dropWhile_sublist noTag).length_le
        rw [hrest] at h1
        simp at h1
        omega
      rw [segRun_cons, segStep_tag allc none _ t w rfl htw (by simp),
        ih rest hrlen w ((retainOf allc t).toList) _,
        segSpecGo_cons_rest allc v cs ls t rest hrest, htw]
      simp [sealOf]

theorem sealOf_version_ne (st : SegState) (u : Str)
    (h : st.currentVersion ≠ some u) : ∀ b ∈ sealOf st, b.version ≠ u := by
  intro b hb
  unfold sealOf at hb
  cases hcv : st.currentVersion with
  | none => rw [hcv] at hb; simp at hb
  | some w =>
    rw [hcv] at hb
    simp at hb
    subst hb
    intro hwu
    have hwu2 : w = u := hwu
    exact h (by rw [hcv, hwu2])

/-- Invariant: with resume version `u`, no reachable state ever records `u`
as the open version or as the version of a sealed bucket, provided it did not
start that way. -/
theorem segRun_no_untilVersion (allc : Bool) (u : Str) :
    ∀ (ls : List Str) (st : SegState),
      st.currentVersion ≠ some u →
      (∀ b ∈ st.buckets, b.version ≠ u) →
      (segRun allc (some u) st ls).currentVersion ≠ some u ∧
        ∀ b ∈ (segRun allc (some u) st ls).buckets, b.version ≠ u := by
  intro ls
  induction ls with
  | nil => exact fun st h1 h2 => ⟨h1, h2⟩
  | cons l ls ih =>
    intro st h1 h2
    rw [segRun_cons]
    cases hk : st.killed with
    | true =>
      rw [segStep_killed allc _ st l hk]
      exact ih st h1 h2
    | false =>
      cases htag : tagOf l with
      | none =>
        rw [segStep_noTag allc _ st l hk htag]
        exact ih _ h1 h2
      | some v =>
        by_cases hu : (some u : Option Str) = some v
        · rw [segStep_untilTag allc _ st l v hk htag hu]
          exact ih _ h1 h2
        · rw [segStep_tag allc _ st l v hk htag hu]
          apply ih
          · simp only
            intro hvu
            exact hu (by rw [← hvu])
          · intro b hb
            simp only at hb
            rcases List.mem_append.mp hb with hb | hb
            · exact h2 b hb
            · exact sealOf_version_ne st u h1 b hb

theorem segClose_mem_version_ne (st : SegState) (u : Str)
    (h1 : st.currentVersion ≠ some u) (h2 : ∀ b ∈ st.buckets, b.version ≠ u) :
    ∀ b ∈ segClose st, b.version ≠ u := by
  intro b hb
  rcases List.mem_append.mp hb with hb | hb
  · exact h2 b hb
  · exact sealOf_version_ne st u h1 b hb

/-- With an open version `none`, the accumulated commits are irrelevant to
the final bucket list: they are reset at the first tag or vanish at close. -/
theorem segRun_cvNone_ccIrrelevant (allc : Bool) (u : Option Str) :
    ∀ (ls : List Str) (cs cs2 : List Str) (bs : List VersionBucket),
      segClose (segRun allc u ⟨bs, cs, none, false⟩ ls) =
        segClose (segRun allc u ⟨bs, cs2, none, false⟩ ls) := by
  intro ls
  induction ls with
  | nil => intro cs cs2 bs; simp [segRun_nil, segClose, sealOf]
  | cons l ls ih =>
    intro cs cs2 bs
    rw [segRun_cons, segRun_cons]
    cases htag : tagOf l with
    | none =>
      rw [segStep_noTag allc u _ l rfl htag, segStep_noTag allc u _ l rfl htag]
      exact ih _ _ _
    | some v =>
      by_cases hu : u = some v
      · rw [segStep_untilTag allc u _ l v rfl htag hu,
          segStep_untilTag allc u _ l v rfl htag hu,
          segRun_killed _ _ _ _ rfl, segRun_killed _ _ _ _ rfl]
        simp [segClose, sealOf]
      · rw [segStep_tag allc u _ l v rfl htag hu,
          segStep_tag allc u _ l v rfl htag hu]
        simp only [sealOf]

theorem splitOnChar_ne_nil (sep : Char) (s : Str) : splitOnChar sep s ≠ [] := by
  cases s with
  | nil => simp [splitOnChar]
  | cons c rest =>
    rw [splitOnChar]
    split
    · simp
    · split <;> simp

theorem hashesOf_ne_nil (l : Str) : hashesOf l ≠ [] :=
  splitOnChar_ne_nil _ _

/-- The retention test of the source, `hashes[0].length && (allCommits ||
hashes.length > 2)`, restated with the reading of the claim: the token list holds
the commit hash plus at least two parent hashes. -/
theorem retainOf_iff (allc : Bool) (l : Str) :
    retainOf allc l =
      if (hashesOf l).headD [] ≠ [] ∧ (allc = true ∨ 2 ≤ (hashesOf l).tail.length)
      then some ((hashesOf l).headD []) else none := by
  unfold retainOf
  cases hh : hashesOf l with
  | nil => exact absurd hh (hashesOf_ne_nil l)
  | cons h t =>
    simp only [List.headD_cons, List.tail_cons, List.length_cons]
    by_cases h1 : h = []
    · subst h1
      simp
    · have hne : ¬h.isEmpty := by simpa [List.isEmpty_iff] using h1
      by_cases h2 : allc = true
      · subst h2
        simp [hne, h1]
      · have h2f : allc = false := by
          cases allc
          · rfl
          · exact absurd rfl h2
        subst h2f
        by_cases h3 : 2 ≤ t.length
        · have : t.length + 1 > 2 := by omega
          simp [hne, h1, h3, this]
        · have : ¬(t.length + 1 > 2) := by omega
          simp [hne, h1, h3, this]

theorem retainOf_toList_pos (allc : Bool) (l : Str)
    (hc : (hashesOf l).headD [] ≠ [] ∧ (allc = true ∨ 2 ≤ (hashesOf l).tail.length)) :
    (retainOf allc l).toList = [(hashesOf l).headD []] := by
  rw [retainOf_iff, if_pos hc]
  rfl

theorem retainOf_toList_neg (allc : Bool) (l : Str)
    (hc : ¬((hashesOf l).headD [] ≠ [] ∧ (allc = true ∨ 2 ≤ (hashesOf l).tail.length))) :
    (retainOf allc l).toList = [] := by
  rw [retainOf_iff, if_neg hc]
  rfl

/-! ## Lemmas for the changelog scan (C4) -/

theorem splitLines_ne_nil (s : Str) : splitLines s ≠ [] := by
  cases s with
  | nil => simp [splitLines]
  | cons c rest =>
    cases rest with
    | nil =>
      rw [splitLines]
      split <;> simp
    | cons c2 r2 =>
      rw [splitLines]
      split
      · simp
      · split
        · simp
        · cases hsp : splitLines (c2 :: r2) <;> simp [consHead]

theorem joinNl_splitLines (s : Str) (h : '\r' ∉ s) :
    joinNl (splitLines s) = s ++ ['\n'] := by
  induction s with
  | nil => rfl
  | cons c rest ih =>
    have hc : c ≠ '\r' := fun hc => h (by simp [hc])
    have hr : '\r' ∉ rest := fun hr => h (by simp [hr])
    cases rest with
    | nil =>
      by_cases hn : c = '\n'
      · subst hn
        rfl
      · simp [splitLines, hn, joinNl]
    | cons c2 r2 =>
      rw [splitLines]
      by_cases hn : c = '\n'
      · subst hn
        rw [if_pos rfl]
        simp only [joinNl, List.nil_append]
        rw [ih hr]
        rfl
      · rw [if_neg hn, if_neg (fun hand => hc hand.1)]
        cases hsp : splitLines (c2 :: r2) with
        | nil => exact absurd hsp (splitLines_ne_nil _)
        | cons l ls =>
          have hjoin := ih hr
          rw [hsp] at hjoin
          simp only [joinNl] at hjoin
          simp only [consHead, joinNl, List.cons_append, List.append_assoc] at *
          rw [hjoin]

theorem scanLine_some (h o : Str) (v : Str) (l : Str) :
    scanLine ⟨h, o, some v⟩ l = ⟨h, o ++ l ++ ['\n'], some v⟩ := by
  simp [scanLine, List.append_assoc]

theorem scanFold_some (L : List Str) : ∀ (h o : Str) (v : Str),
    L.foldl scanLine ⟨h, o, some v⟩ = ⟨h, o ++ joinNl L, some v⟩ := by
  induction L with
  | nil => intro h o v; simp [joinNl]
  | cons l L ih =>
    intro h o v
    rw [List.foldl_cons, scanLine_some, ih]
    simp [joinNl]

theorem scanFold_main (L : List Str) : ∀ (h : Str),
    ((L.foldl scanLine ⟨h, [], none⟩).header ++
        (L.foldl scanLine ⟨h, [], none⟩).old = h ++ joinNl L) ∧
      ((L.foldl scanLine ⟨h, [], none⟩).untilV.isSome = true →
        (L.foldl scanLine ⟨h, [], none⟩).old ≠ []) := by
  induction L with
  | nil =>
    intro h
    refine ⟨by simp [joinNl], ?_⟩
    intro hcontra
    simp at hcontra
  | cons l L ih =>
    intro h
    rw [List.foldl_cons]
    by_cases hv : isVersion l = true
    · have hstep : scanLine ⟨h, [], none⟩ l = ⟨h, l ++ ['\n'], some l⟩ := by
        simp [scanLine, hv]
      rw [hstep, scanFold_some L h (l ++ ['\n']) l]
      refine ⟨by simp [joinNl], ?_⟩
      intro _
      simp
    · have hv2 : isVersion l = false := by
        cases hviv : isVersion l
        · rfl
        · exact absurd hviv hv
      have hstep : scanLine ⟨h, [], none⟩ l = ⟨h ++ l ++ ['\n'], [], none⟩ := by
        simp [scanLine, hv2]
      rw [hstep]
      obtain ⟨ih1, ih2⟩ := ih (h ++ l ++ ['\n'])
      refine ⟨?_, ih2⟩
      rw [ih1]
      simp [joinNl]

/-- Verbatim reassembly: when the changelog used LF endings and the scan
found a last version, the computed header and tail concatenate back to the
original content. -/
theorem scan_verbatim (content : Str) (hr : '\r' ∉ content)
    (hf : (getLastVersionFromChangelog false content).untilV.isSome = true) :
    (getLastVersionFromChangelog false content).header ++
      (getLastVersionFromChangelog false content).old = content := by
  by_cases hemp : content.isEmpty
  · rw [getLastVersionFromChangelog, if_pos (by simp [hemp])] at hf
    simp at hf
  · have hcond : ¬((false || content.isEmpty) = true) := by
      simp only [Bool.false_or]
      exact hemp
    rw [getLastVersionFromChangelog, if_neg hcond] at hf ⊢
    obtain ⟨h1, h2⟩ := scanFold_main (splitLines content) []
    have hold : ((splitLines content).foldl scanLine ⟨[], [], none⟩).old ≠ [] :=
      h2 hf
    simp only
    rw [← List.dropLast_append_of_ne_nil _ hold, h1, List.nil_append,
      joinNl_splitLines content hr]
    simp

/-! ## Lemmas for the message resolver (C7, C8) -/

theorem dropTrailingWs_eq_nil (s : Str) (h : dropTrailingWs s = []) :
    ∀ c ∈ s, jsWs c = true := by
  induction s with
  | nil => simp
  | cons c cs ih =>
    rw [dropTrailingWs] at h
    cases hd : dropTrailingWs cs with
    | nil =>
      rw [hd] at h
      by_cases hw : jsWs c
      · intro x hx
        rcases List.mem_cons.mp hx with hx | hx
        · subst hx; exact hw
        · exact ih hd x hx
      · rw [if_neg hw] at h
        simp at h
    | cons d ds =>
      rw [hd] at h
      simp at h

/-- A case-insensitive prefix made of characters whose lowercase class never
meets whitespace survives removal of trailing whitespace. -/
theorem startsWithCI_dropTrailing (p : Str) :
    ∀ (s : Str),
      (∀ c, jsWs c = true → ∀ x ∈ p, ¬(x.toLower == c.toLower) = true) →
      startsWithCI p s = true → startsWithCI p (dropTrailingWs s) = true := by
  induction p with
  | nil => intro s hws h; simp [startsWithCI]
  | cons x xs ih =>
    intro s hws h
    cases s with
    | nil => simp [startsWithCI] at h
    | cons c cs =>
      rw [startsWithCI, Bool.and_eq_true] at h
      obtain ⟨h1, h2⟩ := h
      have hcnw : jsWs c = false := by
        cases hwc : jsWs c
        · rfl
        · exact absurd h1 (hws c hwc x (by simp))
      rw [dropTrailingWs]
      cases hd : dropTrailingWs cs with
      | nil =>
        rw [if_neg (by simp [hcnw])]
        cases xs with
        | nil => simp [startsWithCI, h1]
        | cons x2 xs2 =>
          cases cs with
          | nil => simp [startsWithCI] at h2
          | cons c2 cs2 =>
            rw [startsWithCI, Bool.and_eq_true] at h2
            have hw2 : jsWs c2 = true := dropTrailingWs_eq_nil _ hd c2 (by simp)
            exact absurd h2.1 (hws c2 hw2 x2 (by simp))
      | cons d ds =>
        rw [startsWithCI, Bool.and_eq_true]
        refine ⟨h1, ?_⟩
        have := ih cs (fun c hc y hy => hws c hc y (by simp [hy])) h2
        rw [hd] at this
        exact this

/-- The same prefix also survives first dropping trailing whitespace and
then leading whitespace. -/
theorem startsWithCI_dropWhile_dropTrailing (p : Str) (hp : p ≠ [])
    (hws : ∀ c, jsWs c = true → ∀ x ∈ p, ¬(x.toLower == c.toLower) = true) :
    ∀ (s : Str), startsWithCI p (s.dropWhile jsWs) = true →
      startsWithCI p ((dropTrailingWs s).dropWhile jsWs) = true := by
  intro s
  induction s with
  | nil =>
    intro h
    cases p with
    | nil => exact absurd rfl hp
    | cons x xs => simp [startsWithCI] at h
  | cons c cs ih =>
    intro h
    by_cases hw : jsWs c = true
    · rw [List.dropWhile_cons, if_pos hw] at h
      rw [dropTrailingWs]
      cases hd : dropTrailingWs cs with
      | nil =>
        have hnil : cs.dropWhile jsWs = [] := by
          rw [List.dropWhile_eq_nil_iff]
          exact fun a ha => dropTrailingWs_eq_nil cs hd a ha
        rw [hnil] at h
        cases p with
        | nil => exact absurd rfl hp
        | cons x xs => simp [startsWithCI] at h
      | cons d ds =>
        show startsWithCI p (List.dropWhile jsWs (c :: d :: ds)) = true
        rw [List.dropWhile_cons, if_pos hw]
        have hrec := ih h
        rw [hd] at hrec
        exact hrec
    · have hwf : jsWs c = false := by
        cases hwc : jsWs c
        · rfl
        · exact absurd hwc hw
      rw [List.dropWhile_cons, if_neg (by simp [hwf])] at h
      rw [dropTrailingWs]
      cases hd : dropTrailingWs cs with
      | nil =>
        rw [if_neg (by simp [hwf]), List.dropWhile_cons, if_neg (by simp [hwf])]
        cases p with
        | nil => exact absurd rfl hp
        | cons x xs =>
          rw [startsWithCI, Bool.and_eq_true] at h
          obtain ⟨h1, h2⟩ := h
          cases xs with
          | nil => simp [startsWithCI, h1]
          | cons x2 xs2 =>
            cases cs with
            | nil => simp [startsWithCI] at h2
            | cons c2 cs2 =>
              rw [startsWithCI, Bool.and_eq_true] at h2
              have hw2 : jsWs c2 = true := dropTrailingWs_eq_nil _ hd c2 (by simp)
              exact absurd h2.1 (hws c2 hw2 x2 (by simp))
      | cons d ds =>
        rw [List.dropWhile_cons, if_neg (by simp [hwf])]
        cases p with
        | nil => exact absurd rfl hp
        | cons x xs =>
          rw [startsWithCI, Bool.and_eq_true] at h
          obtain ⟨h1, h2⟩ := h
          rw [startsWithCI, Bool.and_eq_true]
          refine ⟨h1, ?_⟩
          have := startsWithCI_dropTrailing xs cs
            (fun c hc y hy => hws c hc y (by simp [hy])) h2
          rw [hd] at this
          exact this

theorem startsWithCI_head (x c : Char) (xs cs : Str)
    (h : startsWithCI (x :: xs) (c :: cs) = true) :
    (x.toLower == c.toLower) = true := by
  rw [startsWithCI, Bool.and_eq_true] at h
  exact h.1

theorem ws_not_ci_conflicts (c : Char) (h : jsWs c = true) :
    ∀ x ∈ "conflicts:".data, ¬(x.toLower == c.toLower) = true := by
  rw [jsWs] at h
  simp only [Bool.or_eq_true, decide_eq_true_eq] at h
  rcases h with ((((h | h) | h) | h) | h) | h <;> subst h <;> decide

/-- A line matching the conflict pattern still matches it after trimming,
since the pattern starts with a non-whitespace character and ends in a
colon. -/
theorem conflictMatch_jsTrim (s : Str) (h : conflictMatch s = true) :
    conflictMatch (jsTrim s) = true := by
  rw [conflictMatch.eq_def, Bool.or_eq_true] at h
  rcases h with h | h
  · cases s with
    | nil => simp [startsWithCI] at h
    | cons c cs =>
      have h1 : (('c').toLower == c.toLower) = true :=
        startsWithCI_head 'c' c _ cs h
      have hcw : jsWs c = false := by
        cases hwc : jsWs c
        · rfl
        · exact absurd h1 (ws_not_ci_conflicts c hwc 'c' (by decide))
      rw [jsTrim, List.dropWhile_cons, if_neg (by simp [hcw])]
      rw [conflictMatch.eq_def, Bool.or_eq_true]
      left
      exact startsWithCI_dropTrailing _ _ ws_not_ci_conflicts h
  · cases s with
    | nil => simp at h
    | cons c cs =>
      simp only [Bool.and_eq_true, decide_eq_true_eq] at h
      obtain ⟨hc, h2⟩ := h
      subst hc
      rw [jsTrim, List.dropWhile_cons, if_neg (by decide)]
      rw [dropTrailingWs]
      cases hd : dropTrailingWs cs with
      | nil =>
        have hnil : cs.dropWhile jsWs = [] := by
          rw [List.dropWhile_eq_nil_iff]
          exact fun a ha => dropTrailingWs_eq_nil cs hd a ha
        rw [hnil] at h2
        simp [startsWithCI] at h2
      | cons d ds =>
        rw [if_neg (by decide)]
        rw [conflictMatch.eq_def, Bool.or_eq_true]
        right
        simp only [Bool.and_eq_true, decide_eq_true_eq]
        refine ⟨by simp, ?_⟩
        have := startsWithCI_dropWhile_dropTrailing "conflicts:".data
          (by decide) ws_not_ci_conflicts cs h2
        rw [hd] at this
        exact this

theorem msgRun_nil (st : MsgState) : msgRun st [] = st := rfl

theorem msgRun_cons (st : MsgState) (l : Str) (body : List Str) :
    msgRun st (l :: body) = msgRun (msgLineStep st l) body := rfl

theorem msgRun_append (st : MsgState) (b1 b2 : List Str) :
    msgRun st (b1 ++ b2) = msgRun (msgRun st b1) b2 :=
  List.foldl_append _ _ _ _

theorem msgLineStep_conflictFound (st : MsgState) (l : Str)
    (h : st.foundConflict = true) : msgLineStep st l = st := by
  obtain ⟨f, m, fc⟩ := st
  simp only at h
  subst h
  simp [msgLineStep]

theorem msgRun_conflictFound (st : MsgState) (body : List Str)
    (h : st.foundConflict = true) : msgRun st body = st := by
  induction body with
  | nil => rfl
  | cons l ls ih => rw [msgRun_cons, msgLineStep_conflictFound st l h, ih]

theorem msgLineStep_conflictLine (st : MsgState) (l : Str)
    (h : conflictMatch (jsTrim l) = true) :
    msgLineStep st l = { st with foundConflict := true } := by
  simp [msgLineStep, h]

/-- A merge-request line can match neither the conflict pattern nor the
merge-branch pattern: the leading characters differ. -/
theorem mergeRequestMatch_disjoint (t : Str) (h : mergeRequestMatch t = true) :
    conflictMatch t = false ∧ mergeBranchMatch t = false := by
  cases t with
  | nil => simp [mergeRequestMatch, startsWithCI] at h
  | cons c cs =>
    have h1 : (('s').toLower == c.toLower) = true :=
      startsWithCI_head 's' c _ cs h
    have hcl : c.toLower = 's' := by
      have : ('s').toLower = c.toLower := by simpa using h1
      rw [← this]
      decide
    constructor
    · cases hcm : conflictMatch (c :: cs)
      · rfl
      · exfalso
        rw [conflictMatch.eq_def, Bool.or_eq_true] at hcm
        rcases hcm with hcm | hcm
        · have := startsWithCI_head 'c' c _ cs hcm
          rw [hcl] at this
          simp at this
        · simp only [Bool.and_eq_true, decide_eq_true_eq] at hcm
          rw [hcm.1] at hcl
          simp at hcl
    · cases hcm : mergeBranchMatch (c :: cs)
      · rfl
      · exfalso
        rw [mergeBranchMatch, Bool.or_eq_true] at hcm
        rcases hcm with hcm | hcm <;>
        · have := startsWithCI_head 'm' c _ cs hcm
          rw [hcl] at this
          simp at this

theorem msgLineStep_mergeRequest (st : MsgState) (l : Str)
    (hfc : st.foundConflict = false)
    (hmr : mergeRequestMatch (jsTrim l) = true) :
    msgLineStep st l = { st with isMergeRequest := true } := by
  obtain ⟨hc, hb⟩ := mergeRequestMatch_disjoint (jsTrim l) hmr
  simp [msgLineStep, hfc, hc, hb, hmr]

theorem msgLineStep_isMR_monotone (st : MsgState) (l : Str)
    (h : st.isMergeRequest = true) :
    (msgLineStep st l).isMergeRequest = true := by
  rw [msgLineStep]
  split
  · exact h
  · split
    · exact h
    · split
      · rfl
      · split
        · exact h
        · exact h

theorem msgRun_isMR_monotone (body : List Str) : ∀ (st : MsgState),
    st.isMergeRequest = true → (msgRun st body).isMergeRequest = true := by
  induction body with
  | nil => exact fun st h => h
  | cons l ls ih =>
    intro st h
    rw [msgRun_cons]
    exact ih _ (msgLineStep_isMR_monotone st l h)

/-- The merge-request flag is write-only: it influences neither the retained
lines nor the conflict flag of any later state. -/
theorem msgRun_isMR_independent (body : List Str) :
    ∀ (f : List Str) (b b2 fc : Bool),
      (msgRun ⟨f, b, fc⟩ body).filtered = (msgRun ⟨f, b2, fc⟩ body).filtered ∧
        (msgRun ⟨f, b, fc⟩ body).foundConflict =
          (msgRun ⟨f, b2, fc⟩ body).foundConflict := by
  induction body with
  | nil => exact fun f b b2 fc => ⟨rfl, rfl⟩
  | cons l ls ih =>
    intro f b b2 fc
    rw [msgRun_cons, msgRun_cons]
    by_cases h1 : (fc || conflictMatch (jsTrim l)) = true
    · have hs : ∀ b3 : Bool, msgLineStep ⟨f, b3, fc⟩ l = ⟨f, b3, true⟩ := by
        intro b3
        simp [msgLineStep, h1]
      rw [hs b, hs b2]
      exact ih f b b2 true
    · have h1f : (fc || conflictMatch (jsTrim l)) = false := by
        cases hcc : (fc || conflictMatch (jsTrim l))
        · rfl
        · exact absurd hcc h1
      by_cases h2 : mergeBranchMatch (jsTrim l) = true
      · have hs : ∀ b3 : Bool, msgLineStep ⟨f, b3, fc⟩ l = ⟨f, b3, fc⟩ := by
          intro b3
          simp [msgLineStep, h1f, h2]
        rw [hs b, hs b2]
        exact ih f b b2 fc
      · by_cases h3 : mergeRequestMatch (jsTrim l) = true
        · have hs : ∀ b3 : Bool, msgLineStep ⟨f, b3, fc⟩ l = ⟨f, true, fc⟩ := by
            intro b3
            simp [msgLineStep, h1f, h2, h3]
          rw [hs b, hs b2]
          exact ⟨rfl, rfl⟩
        · by_cases h4 : (jsTrim l).isEmpty
          · have hs : ∀ b3 : Bool, msgLineStep ⟨f, b3, fc⟩ l = ⟨f, b3, fc⟩ := by
              intro b3
              simp [msgLineStep, h1f, h2, h3, h4]
            rw [hs b, hs b2]
            exact ih f b b2 fc
          · have hs : ∀ b3 : Bool,
                msgLineStep ⟨f, b3, fc⟩ l = ⟨f ++ [jsTrim l], b3, fc⟩ := by
              intro b3
              simp [msgLineStep, h1f, h2, h3, h4]
            rw [hs b, hs b2]
            exact ih (f ++ [jsTrim l]) b b2 fc

theorem msgRun_no_mergeRequest (body : List Str) :
    ∀ (f : List Str) (fc : Bool),
      (∀ l ∈ body, mergeRequestMatch (jsTrim l) = false) →
      (msgRun ⟨f, false, fc⟩ body).isMergeRequest = false := by
  induction body with
  | nil => exact fun f fc _ => rfl
  | cons l ls ih =>
    intro f fc hno
    rw [msgRun_cons]
    have hl : mergeRequestMatch (jsTrim l) = false := hno l (by simp)
    by_cases h1 : (fc || conflictMatch (jsTrim l)) = true
    · have hs : msgLineStep ⟨f, false, fc⟩ l = ⟨f, false, true⟩ := by
        simp [msgLineStep, h1]
      rw [hs]
      exact ih f true (fun x hx => hno x (by simp [hx]))
    · have h1f : (fc || conflictMatch (jsTrim l)) = false := by
        cases hcc : (fc || conflictMatch (jsTrim l))
        · rfl
        · exact absurd hcc h1
      by_cases h2 : mergeBranchMatch (jsTrim l) = true
      · have hs : msgLineStep ⟨f, false, fc⟩ l = ⟨f, false, fc⟩ := by
          simp [msgLineStep, h1f, h2]
        rw [hs]
        exact ih f fc (fun x hx => hno x (by simp [hx]))
      · by_cases h4 : (jsTrim l).isEmpty
        · have hs : msgLineStep ⟨f, false, fc⟩ l = ⟨f, false, fc⟩ := by
            simp [msgLineStep, h1f, h2, hl, h4]
          rw [hs]
          exact ih f fc (fun x hx => hno x (by simp [hx]))
        · have hs : msgLineStep ⟨f, false, fc⟩ l = ⟨f ++ [jsTrim l], false, fc⟩ := by
            simp [msgLineStep, h1f, h2, hl, h4]
          rw [hs]
          exact ih (f ++ [jsTrim l]) fc (fun x hx => hno x (by simp [hx]))

/-! ## Lemmas for tag detection (C5) and error propagation (C6) -/

theorem tagFold_some (ds : List Str) (t : Str) :
    ds.foldl
      (fun tag version =>
        match tag with
        | some t => some t
        | none =>
          match tagCapture version with
          | none => none
          | some cap => if isVersion cap then some cap else none)
      (some t) = some t := by
  induction ds with
  | nil => rfl
  | cons d ds ih => rw [List.foldl_cons]; exact ih

/-- The `_.reduce` of `getTagVersion` keeps the first qualifying capture:
it equals a first-match search. -/
theorem tagFold_findSome (ds : List Str) :
    ds.foldl
      (fun tag version =>
        match tag with
        | some t => some t
        | none =>
          match tagCapture version with
          | none => none
          | some cap => if isVersion cap then some cap else none)
      none = ds.findSome? qualTag := by
  induction ds with
  | nil => rfl
  | cons d ds ih =>
    rw [List.foldl_cons, List.findSome?_cons]
    show List.foldl _ (qualTag d) ds = _
    cases hq : qualTag d with
    | none => exact ih
    | some v => exact tagFold_some ds v

theorem getTagVersion_findSome (s : Str) (hne : ¬s.isEmpty = true) :
    getTagVersion (some s) = (splitCommasWs s).findSome? qualTag := by
  rw [getTagVersion]
  simp only [hne, if_false, Bool.false_eq_true]
  exact tagFold_findSome (splitCommasWs s)

theorem exceptMapM_error_of_mem {α β : Type} (f : α → Except Str β)
    (l : List α) (a : α) (ha : a ∈ l) (e : Str) (he : f a = .error e) :
    ∃ e2, exceptMapM f l = .error e2 := by
  induction l with
  | nil => simp at ha
  | cons x xs ih =>
    rw [exceptMapM]
    cases hx : f x with
    | error e3 => exact ⟨e3, rfl⟩
    | ok b =>
      rcases List.mem_cons.mp ha with ha | ha
      · subst ha
        rw [hx] at he
        exact absurd he (by simp)
      · obtain ⟨e2, he2⟩ := ih ha
        rw [he2]
        exact ⟨e2, rfl⟩

/-- A failing message fetch for any commit of any bucket aborts the whole
message-resolution stage with an error. -/
theorem getMessagesForVersions_error (allc short : Bool) (san : Str → Str)
    (msgBody : Str → List Str) (msgExit : Str → Nat)
    (buckets : List VersionBucket) (b : VersionBucket) (hb : b ∈ buckets)
    (h : Str) (hh : h ∈ b.commits) (hex : msgExit h ≠ 0) :
    ∃ e, getMessagesForVersions allc short san msgBody msgExit buckets =
      .error e := by
  have hper : perCommitMessage allc short san msgBody msgExit h =
      .error ("Unable to get commit message. Git errored with code #".data ++
        (Nat.repr (msgExit h)).data) := by
    rw [perCommitMessage, if_pos hex]
  obtain ⟨e1, he1⟩ :=
    exceptMapM_error_of_mem (perCommitMessage allc short san msgBody msgExit)
      b.commits h hh _ hper
  rw [getMessagesForVersions]
  apply exceptMapM_error_of_mem _ buckets b hb e1
  show (getMessagesForListOfCommits allc short san msgBody msgExit b.commits).map
      (fun msgs => (⟨b.version, filterEmptyMessages msgs⟩ : VersionWithMessages)) =
    .error e1
  rw [getMessagesForListOfCommits, he1]
  rfl

/-! ## Claim theorems -/

/-- C1 counterexample: on the stream `aaa p q#tag: v2.0.0`,
`bbb#tag: v1.0.0`, `ccc p q#` with resume version `1.0.0`, the Segmenter
outputs the single bucket `2.0.0 ↦ [aaa]`: the bucket that was open when
the resume tag was detected is sealed and pushed by the `close` handler
(the killed process closes with a null exit code, taken as success), so it
is not discarded and the result list is not empty as the claim requires. -/
theorem claim1_resume_discard_cex :
    segBuckets true none (some "1.0.0".data)
        ["aaa p q#tag: v2.0.0".data, "bbb#tag: v1.0.0".data, "ccc p q#".data] =
      [⟨"2.0.0".data, ["aaa".data]⟩] ∧
    segBuckets true none (some "1.0.0".data)
        ["aaa p q#tag: v2.0.0".data, "bbb#tag: v1.0.0".data, "ccc p q#".data] ≠
      [] := by
  exact ⟨by decide, by decide⟩

/-- C1 (amended): upon detecting a tag equal to the resume version
(`untilVersion`), the stream is terminated immediately: the detecting line
and everything after it contribute nothing, the Segmenter output being
exactly that of the stream truncated before that line — so the open bucket
is sealed and pushed at stream close exactly as at end-of-stream, not
discarded.  Unless the start-version override itself equals the resume
version, the resume version never appears as a bucket in the output. -/
theorem claim1_resume_termination (allc : Bool) (sv : Option Str) (u : Str)
    (pre post : List Str) (c : Str) (htagc : tagOf c = some u) :
    segBuckets allc sv (some u) (pre ++ c :: post) =
        segBuckets allc sv (some u) pre ∧
      (sv ≠ some u →
        ∀ b ∈ segBuckets allc sv (some u) (pre ++ c :: post), b.version ≠ u) := by
  constructor
  · unfold segBuckets
    rw [segRun_append]
    cases hk : (segRun allc (some u) ⟨[], [], sv, false⟩ pre).killed with
    | true => rw [segRun_killed allc (some u) _ (c :: post) hk]
    | false =>
      rw [segRun_cons, segStep_untilTag allc (some u) _ c u hk htagc rfl,
        segRun_killed allc (some u) _ post rfl]
      exact segClose_ignores_killed _ true
  · intro hsv b hb
    have hinv := segRun_no_untilVersion allc u (pre ++ c :: post)
      ⟨[], [], sv, false⟩ (by simpa using hsv) (by simp)
    exact segClose_mem_version_ne _ u hinv.1 hinv.2 b hb

/-- Witness for C1 (amended) at a concrete stream. -/
theorem claim1_resume_termination_witness :
    tagOf "bbb#tag: v1.0.0".data = some "1.0.0".data ∧
    segBuckets true none (some "1.0.0".data)
        (["aaa p q#tag: v2.0.0".data] ++
          "bbb#tag: v1.0.0".data :: ["ccc p q#".data]) =
      segBuckets true none (some "1.0.0".data) ["aaa p q#tag: v2.0.0".data] ∧
    (⟨"2.0.0".data, ["aaa".data]⟩ : VersionBucket).version ≠ "1.0.0".data := by
  refine ⟨by decide, ?_, ?_⟩
  · exact (claim1_resume_termination true none "1.0.0".data
      ["aaa p q#tag: v2.0.0".data] ["ccc p q#".data] "bbb#tag: v1.0.0".data
      (by decide)).1
  · exact (claim1_resume_termination true none "1.0.0".data
      ["aaa p q#tag: v2.0.0".data] ["ccc p q#".data] "bbb#tag: v1.0.0".data
      (by decide)).2 (by decide) ⟨"2.0.0".data, ["aaa".data]⟩ (by decide)

/-- C2: with no resume version in play, the segmentation fold over any
stream equals the declarative grouping `segSpecTop`: buckets appear in
tag-detection order; when a new tag is detected the currently open bucket
(started by the start-version, if any) is sealed and pushed before the new
bucket opens; the retained commit of the tag-bearing line belongs to the
bucket of that very tag; and every retained commit strictly between a tag
and the next older tag lies in the bucket of the newer tag. -/
theorem claim2_version_grouping (allc : Bool) (sv : Option Str)
    (ls : List Str) : segBuckets allc sv none ls = segSpecTop allc sv ls := by
  cases sv with
  | some v =>
    have := segRun_segSpecGo allc ls.length ls (le_refl _) v [] []
    rw [segSpecTop]
    exact this
  | none =>
    unfold segBuckets segSpecTop
    have hsplit := List.takeWhile_append_dropWhile noTag ls
    conv_lhs => rw [← hsplit]
    rw [segRun_append,
      segRun_noTags allc none _ _ rfl (fun l hl => List.mem_takeWhile_imp hl)]
    cases hrest : ls.dropWhile noTag with
    | nil =>
      rw [segRun_nil]
      simp [segClose, sealOf]
    | cons t rest =>
      have hnt : noTag t = false := dropWhile_head_false noTag ls t rest hrest
      obtain ⟨w, htw⟩ : ∃ w, tagOf t = some w := by
        cases htag : tagOf t with
        | none => rw [noTag, htag] at hnt; simp at hnt
        | some w => exact ⟨w, rfl⟩
      rw [segRun_cons, segStep_tag allc none _ t w rfl htw (by simp),
        segRun_segSpecGo allc rest.length rest (le_refl _) w _ _]
      simp [sealOf, htw]

/-- C3: a history line processed by a live (not killed) Segmenter state, and
not bearing the resume tag, has its commit hash appended to the open
commit list of the open bucket iff the hash token is non-empty and either all-commits
mode is on or the space-split token list holds the commit hash plus at least
two parent hashes; otherwise the commit list is exactly the base (reset by a
tag, untouched otherwise) — single-parent and parentless commits are
dropped when all-commits mode is off. -/
theorem claim3_retention_policy (allc : Bool) (u : Option Str)
    (st : SegState) (l : Str) (hk : st.killed = false)
    (hnu : tagOf l = none ∨ u ≠ tagOf l) :
    ((segStep allc u st l).currentCommits =
        (if (tagOf l).isSome then [] else st.currentCommits) ++
          [(hashesOf l).headD []] ↔
      ((hashesOf l).headD [] ≠ [] ∧
        (allc = true ∨ 2 ≤ (hashesOf l).tail.length))) ∧
    (¬((hashesOf l).headD [] ≠ [] ∧
        (allc = true ∨ 2 ≤ (hashesOf l).tail.length)) →
      (segStep allc u st l).currentCommits =
        (if (tagOf l).isSome then [] else st.currentCommits)) := by
  have hcc : (segStep allc u st l).currentCommits =
      (if (tagOf l).isSome then [] else st.currentCommits) ++
        (retainOf allc l).toList := by
    cases htag : tagOf l with
    | none =>
      rw [segStep_noTag allc u st l hk htag]
      simp [htag]
    | some v =>
      have hu : u ≠ some v := by
        rcases hnu with hnu | hnu
        · rw [htag] at hnu; exact absurd hnu (by simp)
        · rw [htag] at hnu; exact hnu
      rw [segStep_tag allc u st l v hk htag hu]
      simp [htag]
  rw [hcc]
  constructor
  · constructor
    · intro heq
      by_cases hcond : ((hashesOf l).headD [] ≠ [] ∧
          (allc = true ∨ 2 ≤ (hashesOf l).tail.length))
      · exact hcond
      · rw [retainOf_toList_neg allc l hcond] at heq
        simp at heq
    · intro hcond
      rw [retainOf_toList_pos allc l hcond]
  · intro hcond
    rw [retainOf_toList_neg allc l hcond]
    simp

/-- Witness for C3 at a concrete state and line: a two-parent commit is
retained with all-commits off. -/
theorem claim3_retention_policy_witness :
    (⟨[], ["xxx".data], some "1.0.0".data, false⟩ : SegState).killed = false ∧
    (tagOf "abc p q#".data = none ∨
      (none : Option Str) ≠ tagOf "abc p q#".data) ∧
    (((segStep false none ⟨[], ["xxx".data], some "1.0.0".data, false⟩
          "abc p q#".data).currentCommits =
        (if (tagOf "abc p q#".data).isSome then []
          else ["xxx".data]) ++ [(hashesOf "abc p q#".data).headD []] ↔
      ((hashesOf "abc p q#".data).headD [] ≠ [] ∧
        (false = true ∨ 2 ≤ (hashesOf "abc p q#".data).tail.length))) ∧
      (¬((hashesOf "abc p q#".data).headD [] ≠ [] ∧
          (false = true ∨ 2 ≤ (hashesOf "abc p q#".data).tail.length)) →
        (segStep false none ⟨[], ["xxx".data], some "1.0.0".data, false⟩
            "abc p q#".data).currentCommits =
          (if (tagOf "abc p q#".data).isSome then [] else ["xxx".data]))) := by
  refine ⟨by decide, by decide, ?_⟩
  exact claim3_retention_policy false none
    ⟨[], ["xxx".data], some "1.0.0".data, false⟩ "abc p q#".data rfl (by decide)

/-- C10: without a start-version override, every line before the first
version tag — hence every commit newer than the newest tag — contributes to
no bucket: the Segmenter output on the whole stream equals its output on
the stream with the tagless prefix removed (the accumulated pre-tag commits
are reset at the first tag without a seal-and-push, since no version is
current, and vanish at close if no tag ever arrives). -/
theorem claim10_pre_tag_commits_dropped (allc : Bool) (u : Option Str)
    (pre rest : List Str) (hp : ∀ l ∈ pre, noTag l = true) :
    segBuckets allc none u (pre ++ rest) = segBuckets allc none u rest := by
  unfold segBuckets
  rw [segRun_append, segRun_noTags allc u _ pre rfl hp]
  exact segRun_cvNone_ccIrrelevant allc u rest
    ([] ++ pre.filterMap (retainOf allc)) [] []

/-- Witness for C10 at a concrete stream: the merge commit `h1` before the
first tag appears in no bucket. -/
theorem claim10_pre_tag_commits_dropped_witness :
    (∀ l ∈ (["h1 p q#".data] : List Str), noTag l = true) ∧
    segBuckets false none none
        (["h1 p q#".data] ++ ["a1 p#tag: v1.0.0".data]) =
      segBuckets false none none ["a1 p#tag: v1.0.0".data] := by
  refine ⟨by decide, ?_⟩
  exact claim10_pre_tag_commits_dropped false none ["h1 p q#".data]
    ["a1 p#tag: v1.0.0".data] (by decide)

/-- C4 counterexample: for the CRLF changelog `H\r\n1.0.0\r\nx` the written
file is LF-normalized, so it differs from
`rawHeaderBeforeVersionLine ++ newBlocks ++ rawBodyFromVersionLine`: the body
from the resume version onward is not preserved verbatim. -/
theorem claim4_write_rule_cex :
    writeChangelogFile
        (getLastVersionFromChangelog false "H\r\n1.0.0\r\nx".data).header
        (getLastVersionFromChangelog false "H\r\n1.0.0\r\nx".data).old
        "2.0.0\n=====\n * m\n\n".data =
      some "H\n2.0.0\n=====\n * m\n\n1.0.0\nx".data ∧
    "H\n2.0.0\n=====\n * m\n\n1.0.0\nx".data ≠
      "H\r\n".data ++ "2.0.0\n=====\n * m\n\n".data ++ "1.0.0\r\nx".data := by
  exact ⟨by decide, by decide⟩

/-- C4 (amended): for a changelog with LF line endings in which a last
version line is found, a run producing rendered blocks writes exactly
`header ++ blocks ++ old`, where `header ++ old` reassembles the old content
verbatim (header = content before the version line, old = content from it
onward); for CRLF content the same holds only up to newline normalization.
A run producing no blocks writes nothing. -/
theorem claim4_write_rule (content blocks : Str) (hr : '\r' ∉ content)
    (hf : (getLastVersionFromChangelog false content).untilV.isSome = true) :
    (blocks ≠ [] →
      writeChangelogFile (getLastVersionFromChangelog false content).header
          (getLastVersionFromChangelog false content).old blocks =
        some ((getLastVersionFromChangelog false content).header ++ blocks ++
          (getLastVersionFromChangelog false content).old) ∧
      (getLastVersionFromChangelog false content).header ++
          (getLastVersionFromChangelog false content).old = content) ∧
    writeChangelogFile (getLastVersionFromChangelog false content).header
        (getLastVersionFromChangelog false content).old [] = none := by
  refine ⟨fun hb => ⟨?_, scan_verbatim content hr hf⟩, rfl⟩
  rw [writeChangelogFile, if_neg (by simpa [List.isEmpty_iff] using hb)]

/-- Witness for C4 (amended) at a concrete LF changelog. -/
theorem claim4_write_rule_witness :
    '\r' ∉ "Intro\n1.0.0\n * old\n".data ∧
    (getLastVersionFromChangelog false
        "Intro\n1.0.0\n * old\n".data).untilV.isSome = true ∧
    ("2.0.0\n=====\n * new\n\n".data : Str) ≠ [] ∧
    (writeChangelogFile
        (getLastVersionFromChangelog false "Intro\n1.0.0\n * old\n".data).header
        (getLastVersionFromChangelog false "Intro\n1.0.0\n * old\n".data).old
        "2.0.0\n=====\n * new\n\n".data =
      some ((getLastVersionFromChangelog false
          "Intro\n1.0.0\n * old\n".data).header ++
        "2.0.0\n=====\n * new\n\n".data ++
        (getLastVersionFromChangelog false
          "Intro\n1.0.0\n * old\n".data).old) ∧
      (getLastVersionFromChangelog false "Intro\n1.0.0\n * old\n".data).header ++
          (getLastVersionFromChangelog false "Intro\n1.0.0\n * old\n".data).old =
        "Intro\n1.0.0\n * old\n".data) := by
  refine ⟨by decide, by decide, by decide, ?_⟩
  exact (claim4_write_rule "Intro\n1.0.0\n * old\n".data
    "2.0.0\n=====\n * new\n\n".data (by decide) (by decide)).1 (by decide)

/-- C5 counterexample: the decoration `tag:v1.2.3` (no whitespace after the
colon) matches the pattern `tag:\s*v?(<version>)` stated by the claim with
capture `1.2.3`, but the pattern `tag:[\s]+v?(.*)` of the source demands at least
one whitespace character, so `getTagVersion` detects no tag there. -/
theorem claim5_tag_pattern_cex :
    claimFirstTag ["tag:v1.2.3".data] = some "1.2.3".data ∧
    getTagVersion (some "tag:v1.2.3".data) = none := by
  exact ⟨by decide, by decide⟩

/-- C5 (amended): with the whitespace quantifier corrected to one-or-more
(`tag:\s+v?(<version>)`, as in the source), tag detection returns the
capture of the first decoration, in provider-supplied order, whose capture
itself matches the version pattern; later qualifying decorations are
ignored, and when no decoration qualifies no tag is detected. -/
theorem claim5_first_decoration_wins :
    (∀ (s : Str) (pre post : List Str) (d : Str) (v : Str),
        splitCommasWs s = pre ++ d :: post →
        (∀ e ∈ pre, qualTag e = none) →
        qualTag d = some v →
        getTagVersion (some s) = some v) ∧
      ∀ (s : Str), (∀ e ∈ splitCommasWs s, qualTag e = none) →
        getTagVersion (some s) = none := by
  constructor
  · intro s pre post d v hsplit hpre hd
    by_cases he : s.isEmpty = true
    · exfalso
      have hs : s = [] := by simpa using he
      subst hs
      have hempty : splitCommasWs [] = [[]] := rfl
      rw [hempty] at hsplit
      cases pre with
      | nil =>
        simp at hsplit
        rw [hsplit.1] at hd
        rw [show qualTag ([] : Str) = none from rfl] at hd
        exact absurd hd (by simp)
      | cons p ps => simp at hsplit
    · rw [getTagVersion_findSome s he, hsplit, List.findSome?_append,
        List.findSome?_eq_none_iff.mpr hpre, List.findSome?_cons, hd]
      rfl
  · intro s hall
    by_cases he : s.isEmpty = true
    · rw [getTagVersion]
      simp [he]
    · rw [getTagVersion_findSome s he]
      exact List.findSome?_eq_none_iff.mpr hall

/-- Witness for C5 (amended) at concrete decorations. -/
theorem claim5_first_decoration_wins_witness :
    splitCommasWs "HEAD -> master, tag: v2.3.4".data =
      ["HEAD -> master".data] ++ "tag: v2.3.4".data :: [] ∧
    (∀ e ∈ (["HEAD -> master".data] : List Str), qualTag e = none) ∧
    qualTag "tag: v2.3.4".data = some "2.3.4".data ∧
    getTagVersion (some "HEAD -> master, tag: v2.3.4".data) =
      some "2.3.4".data ∧
    (∀ e ∈ splitCommasWs "HEAD -> master".data, qualTag e = none) ∧
    getTagVersion (some "HEAD -> master".data) = none := by
  refine ⟨by decide, by decide, by decide, ?_, by decide, ?_⟩
  · exact claim5_first_decoration_wins.1 "HEAD -> master, tag: v2.3.4".data
      ["HEAD -> master".data] [] "tag: v2.3.4".data "2.3.4".data
      (by decide) (by decide) (by decide)
  · exact claim5_first_decoration_wins.2 "HEAD -> master".data (by decide)

/-- C6: a nonzero exit of the history provider (with the stream not killed
early), or a nonzero exit of any single commit-message fetch among the
segmented commits, aborts the whole run with the error of that stage: nothing is
written to the changelog store, the process exit code is 1, and the error
stream carries the `ERROR: `-prefixed description. -/
theorem claim6_fail_fast (opts : Options) (san : Str → Str)
    (inp : RunInput) :
    (segKilled opts.allCommits opts.startVersion
          (getLastVersionFromChangelog opts.overwrite
            (inp.fileContent.getD [])).untilV inp.histLines = false →
      inp.histExit ≠ 0 →
      runMergelogga opts san inp =
        ⟨none, 1,
          some ("ERROR: ".data ++
            ("Unable to get merge commits. Git errored with code #".data ++
              (Nat.repr inp.histExit).data))⟩) ∧
    ∀ buckets,
      getVersionsWithCommits opts.allCommits opts.startVersion
          (getLastVersionFromChangelog opts.overwrite
            (inp.fileContent.getD [])).untilV inp.histLines inp.histExit =
        .ok buckets →
      (∃ b ∈ buckets, ∃ h ∈ b.commits, inp.msgExit h ≠ 0) →
      (runMergelogga opts san inp).written = none ∧
        (runMergelogga opts san inp).exitCode = 1 ∧
        ∃ m, (runMergelogga opts san inp).errOut =
          some ("ERROR: ".data ++ m) := by
  constructor
  · intro hk hex
    rw [segKilled] at hk
    have hhist : getVersionsWithCommits opts.allCommits opts.startVersion
        (getLastVersionFromChangelog opts.overwrite
          (inp.fileContent.getD [])).untilV inp.histLines inp.histExit =
      .error ("Unable to get merge commits. Git errored with code #".data ++
        (Nat.repr inp.histExit).data) := by
      rw [getVersionsWithCommits, if_neg]
      intro hor
      rcases hor with hor | hor
      · rw [hk] at hor
        exact absurd hor (by simp)
      · exact hex hor
    simp only [runMergelogga, hhist]
  · intro buckets hok hex
    obtain ⟨b, hb, h, hh, hexh⟩ := hex
    obtain ⟨e, he⟩ := getMessagesForVersions_error opts.allCommits
      opts.shortCommitMessage san inp.msgBody inp.msgExit buckets b hb h hh hexh
    have hrun : runMergelogga opts san inp =
        ⟨none, 1, some ("ERROR: ".data ++ e)⟩ := by
      simp only [runMergelogga, hok, he]
    rw [hrun]
    exact ⟨rfl, rfl, e, rfl⟩

/-- Witness for C6 at two concrete runs: a failing history provider and a
failing message fetch. -/
theorem claim6_fail_fast_witness :
    (segKilled false none
        (getLastVersionFromChangelog false
          ((none : Option Str).getD [])).untilV [] = false ∧
      (3 : Nat) ≠ 0 ∧
      runMergelogga ⟨false, false, none, false⟩ id
          ⟨none, [], 3, fun _ => [], fun _ => 0⟩ =
        ⟨none, 1,
          some ("ERROR: ".data ++
            ("Unable to get merge commits. Git errored with code #".data ++
              (Nat.repr 3).data))⟩) ∧
    (getVersionsWithCommits false none
        (getLastVersionFromChangelog false
          ((none : Option Str).getD [])).untilV
        ["a1 p q#tag: v1.0.0".data] 0 =
      .ok [⟨"1.0.0".data, ["a1".data]⟩] ∧
      (∃ b ∈ ([⟨"1.0.0".data, ["a1".data]⟩] : List VersionBucket),
        ∃ h ∈ b.commits, (fun (_ : Str) => 1) h ≠ 0) ∧
      (runMergelogga ⟨false, false, none, false⟩ id
          ⟨none, ["a1 p q#tag: v1.0.0".data], 0, fun _ => [],
            fun _ => 1⟩).written = none ∧
      (runMergelogga ⟨false, false, none, false⟩ id
          ⟨none, ["a1 p q#tag: v1.0.0".data], 0, fun _ => [],
            fun _ => 1⟩).exitCode = 1 ∧
      ∃ m, (runMergelogga ⟨false, false, none, false⟩ id
          ⟨none, ["a1 p q#tag: v1.0.0".data], 0, fun _ => [],
            fun _ => 1⟩).errOut = some ("ERROR: ".data ++ m)) := by
  constructor
  · refine ⟨by decide, by decide, ?_⟩
    exact (claim6_fail_fast ⟨false, false, none, false⟩ id
      ⟨none, [], 3, fun _ => [], fun _ => 0⟩).1 (by decide) (by decide)
  · refine ⟨rfl, by decide, ?_⟩
    exact (claim6_fail_fast ⟨false, false, none, false⟩ id
      ⟨none, ["a1 p q#tag: v1.0.0".data], 0, fun _ => [], fun _ => 1⟩).2
      [⟨"1.0.0".data, ["a1".data]⟩] rfl (by decide)

/-- C7: a raw message line matching `^(#\s*)?Conflicts:` (case-insensitive)
truncates the message from that line on: the line itself and every later
line contribute nothing to the resolved text or the merge-request flag, and
the lines before it are processed exactly as if the message ended there. -/
theorem claim7_conflict_truncation (pre post : List Str) (c : Str)
    (h : conflictMatch c = true) :
    (msgRun ⟨[], false, false⟩ (pre ++ c :: post)).filtered =
        (msgRun ⟨[], false, false⟩ pre).filtered ∧
      (msgRun ⟨[], false, false⟩ (pre ++ c :: post)).isMergeRequest =
        (msgRun ⟨[], false, false⟩ pre).isMergeRequest := by
  have htrim := conflictMatch_jsTrim c h
  rw [msgRun_append, msgRun_cons, msgLineStep_conflictLine _ c htrim,
    msgRun_conflictFound _ post rfl]
  exact ⟨rfl, rfl⟩

/-- Witness for C7 at a concrete message body. -/
theorem claim7_conflict_truncation_witness :
    conflictMatch "# Conflicts:".data = true ∧
    (msgRun ⟨[], false, false⟩
        (["Fix the bug".data] ++ "# Conflicts:".data ::
          ["ignored".data, "See merge request !1".data])).filtered =
      (msgRun ⟨[], false, false⟩ ["Fix the bug".data]).filtered ∧
    (msgRun ⟨[], false, false⟩
        (["Fix the bug".data] ++ "# Conflicts:".data ::
          ["ignored".data, "See merge request !1".data])).isMergeRequest =
      (msgRun ⟨[], false, false⟩ ["Fix the bug".data]).isMergeRequest := by
  refine ⟨by decide, ?_, ?_⟩
  · exact (claim7_conflict_truncation ["Fix the bug".data]
      ["ignored".data, "See merge request !1".data] "# Conflicts:".data
      (by decide)).1
  · exact (claim7_conflict_truncation ["Fix the bug".data]
      ["ignored".data, "See merge request !1".data] "# Conflicts:".data
      (by decide)).2

/-- C8: a trimmed line matching `^See merge request !.*` (case-insensitive)
before any conflict marker makes the resolved message a merge request and is
itself removed from the text (the remaining lines resolve as if the line
were deleted); a body with no such line resolves with
`isMergeRequest = false`. -/
theorem claim8_merge_request_line :
    (∀ (pre post : List Str) (c : Str),
        (msgRun ⟨[], false, false⟩ pre).foundConflict = false →
        mergeRequestMatch (jsTrim c) = true →
        (msgRun ⟨[], false, false⟩ (pre ++ c :: post)).isMergeRequest = true ∧
          (msgRun ⟨[], false, false⟩ (pre ++ c :: post)).filtered =
            (msgRun ⟨[], false, false⟩ (pre ++ post)).filtered) ∧
      ∀ (body : List Str),
        (∀ l ∈ body, mergeRequestMatch (jsTrim l) = false) →
        (msgRun ⟨[], false, false⟩ body).isMergeRequest = false := by
  constructor
  · intro pre post c hfc hmr
    rw [msgRun_append, msgRun_append]
    rcases hst : msgRun ⟨[], false, false⟩ pre with ⟨f, b, fc⟩
    rw [hst] at hfc
    have hfc2 : fc = false := hfc
    subst hfc2
    rw [msgRun_cons, msgLineStep_mergeRequest ⟨f, b, false⟩ c rfl hmr]
    constructor
    · exact msgRun_isMR_monotone post _ rfl
    · exact (msgRun_isMR_independent post f true b false).1
  · intro body hno
    exact msgRun_no_mergeRequest body [] false hno

/-- Witness for C8 at concrete message bodies. -/
theorem claim8_merge_request_line_witness :
    (msgRun ⟨[], false, false⟩ ["Fix the bug".data]).foundConflict = false ∧
    mergeRequestMatch (jsTrim "See merge request !42".data) = true ∧
    ((msgRun ⟨[], false, false⟩
        (["Fix the bug".data] ++ "See merge request !42".data ::
          ["tail".data])).isMergeRequest = true ∧
      (msgRun ⟨[], false, false⟩
          (["Fix the bug".data] ++ "See merge request !42".data ::
            ["tail".data])).filtered =
        (msgRun ⟨[], false, false⟩
          (["Fix the bug".data] ++ ["tail".data])).filtered) ∧
    (∀ l ∈ (["plain line".data] : List Str),
      mergeRequestMatch (jsTrim l) = false) ∧
    (msgRun ⟨[], false, false⟩ ["plain line".data]).isMergeRequest = false := by
  refine ⟨by decide, by decide, ?_, by decide, ?_⟩
  · exact claim8_merge_request_line.1 ["Fix the bug".data] ["tail".data]
      "See merge request !42".data (by decide) (by decide)
  · exact claim8_merge_request_line.2 ["plain line".data] (by decide)

/-- C9: with all-commits mode off, a commit whose resolved message is not
marked merge-request contributes the empty text; `filterEmptyMessages`
retains exactly the non-empty texts of a bucket; and `filterEmptyVersions`
passes to the renderer exactly the buckets with a non-empty message list, so
a bucket whose messages all emptied out appears nowhere in the version list
handed to rendering. -/
theorem claim9_empty_message_filtering (short : Bool) (san : Str → Str)
    (msgBody : Str → List Str) (msgExit : Str → Nat) (h : Str) :
    ((resolveMessage short (msgBody h)).2 = false → msgExit h = 0 →
      perCommitMessage false short san msgBody msgExit h = .ok []) ∧
    (∀ (msgs : List Str) (m : Str),
      m ∈ filterEmptyMessages msgs ↔ (m ∈ msgs ∧ m ≠ [])) ∧
    ∀ (vs : List VersionWithMessages) (v : VersionWithMessages),
      v ∈ filterEmptyVersions vs ↔ (v ∈ vs ∧ v.messages ≠ []) := by
  refine ⟨?_, ?_, ?_⟩
  · intro hmr hex
    rw [perCommitMessage, if_neg (by simp [hex])]
    simp [hmr]
  · intro msgs m
    rw [filterEmptyMessages, List.mem_filter]
    simp [List.isEmpty_iff]
  · intro vs v
    rw [filterEmptyVersions, List.mem_filter]
    simp [List.length_pos, List.isEmpty_iff]

/-- Witness for C9 at a concrete non-merge-request commit and concrete
filter inputs. -/
theorem claim9_empty_message_filtering_witness :
    (resolveMessage false ((fun _ => ["boring plain commit".data])
        "a1".data)).2 = false ∧
    ((fun (_ : Str) => (0 : Nat)) "a1".data = 0) ∧
    perCommitMessage false false id (fun _ => ["boring plain commit".data])
        (fun _ => 0) "a1".data = .ok [] ∧
    ("kept".data ∈ filterEmptyMessages [[], "kept".data] ↔
      ("kept".data ∈ ([[], "kept".data] : List Str) ∧ "kept".data ≠ [])) ∧
    ((⟨"1.0.0".data, []⟩ : VersionWithMessages) ∈
        filterEmptyVersions [⟨"1.0.0".data, []⟩, ⟨"0.9.0".data, ["m".data]⟩] ↔
      ((⟨"1.0.0".data, []⟩ : VersionWithMessages) ∈
          ([⟨"1.0.0".data, []⟩, ⟨"0.9.0".data, ["m".data]⟩] :
            List VersionWithMessages) ∧
        (⟨"1.0.0".data, []⟩ : VersionWithMessages).messages ≠ [])) := by
  refine ⟨by decide, rfl, ?_, ?_, ?_⟩
  · exact (claim9_empty_message_filtering false id
      (fun _ => ["boring plain commit".data]) (fun _ => 0) "a1".data).1
      (by decide) rfl
  · exact (claim9_empty_message_filtering false id
      (fun _ => ["boring plain commit".data]) (fun _ => 0) "a1".data).2.1
      [[], "kept".data] "kept".data
  · exact (claim9_empty_message_filtering false id
      (fun _ => ["boring plain commit".data]) (fun _ => 0) "a1".data).2.2
      [⟨"1.0.0".data, []⟩, ⟨"0.9.0".data, ["m".data]⟩] ⟨"1.0.0".data, []⟩

end Mergelogga
